import Mathlib

/-
Verification of the write-ahead key/value store (write_ahead_store.py).

Modelling conventions:
* Strings are modelled by their UTF-8 byte sequences (`Bytes := List Nat`);
  a non-empty Python string corresponds to a non-empty byte list, and the
  comparison `key_bytes.decode() == key` performed by `get` corresponds to
  byte-list equality because UTF-8 encoding is injective.
* The log file is a byte list; `f.read(n)` at cursor `pos` is
  `(file.drop pos).take n` (short reads at end-of-file return fewer bytes,
  exactly like Python file reads).
* `struct.pack("III", a, b, c)` packs three 4-byte unsigned integers with no
  padding (native little-endian order) and raises `struct.error` when an
  argument does not fit in 32 bits; this is modelled by `structPackIII`
  returning `Option`.
* Exceptions that escape a function are modelled with `Except String`;
  exceptions that the source catches and converts (to `False` / `None` plus
  a log line) are modelled by the converted result.
-/

namespace WAStore

/-- Byte strings: lists of byte values. -/
abbrev Bytes := List Nat

/-- Little-endian 4-byte encoding of one `struct.pack "I"` field. -/
def u32le (n : Nat) : Bytes :=
  [n % 256, n / 256 % 256, n / 65536 % 256, n / 16777216 % 256]

/-- Decoding of one 4-byte little-endian unsigned integer, as
`struct.unpack` reads the first field of a buffer. -/
def readU32 : Bytes → Nat
  | b0 :: b1 :: b2 :: b3 :: _ => b0 + 256 * b1 + 65536 * b2 + 16777216 * b3
  | _ => 0

/-- Model of `struct.pack("III", a, b, c)`: three 4-byte unsigned
little-endian integers, no padding; `struct.error` (here `none`) when an
argument is `≥ 2^32`. -/
def structPackIII (a b c : Nat) : Option Bytes :=
  if a < 4294967296 ∧ b < 4294967296 ∧ c < 4294967296 then
    some (u32le a ++ u32le b ++ u32le c)
  else none

/-- Model of a positioned read `f.seek(pos); f.read(n)`: returns at most
`n` bytes, fewer when the file ends. -/
def readAt (file : Bytes) (pos n : Nat) : Bytes :=
  (file.drop pos).take n

/-- The in-memory index `self.__store`: a Python dict from key to
`(offset, is_set)`, modelled as a function (a missing dict entry is
`none`). -/
abbrev Index := Bytes → Option (Nat × Bool)

/-- The empty dict `{}`. -/
def emptyIndex : Index := fun _ => none

/-- Dict update: `d[k] = v` (with `v = some _`) or `d.pop(k, None)`
(with `v = none`). -/
def updateIndex (idx : Index) (k : Bytes) (v : Option (Nat × Bool)) : Index :=
  fun k' => if k' = k then v else idx k'

/-- Result of one iteration of the `while True` loop in `__recovery`. -/
inductive StepResult where
  | done : StepResult
  | corrupt (msg : String) : StepResult
  | next (pos : Nat) (idx : Index) : StepResult

/-- One iteration of the `while True` loop of `__recovery` (lines
135-151 of write_ahead_store.py): read a 12-byte header, break when fewer
than 12 bytes come back, decode `(_, key_length, value_length)`, read the
key (raising on a short read), then either read the value and upsert the
key at the record's offset, or — for `value_length == 0` — pop the key. -/
def replayStep (file : Bytes) (pos : Nat) (idx : Index) : StepResult :=
  let header := readAt file pos 12
  if header.length < 12 then
    .done
  else
    let key_length := readU32 (header.drop 4)
    let value_length := readU32 (header.drop 8)
    let key_bytes := readAt file (pos + 12) key_length
    if key_bytes.length < key_length then
      .corrupt ("Corrupted key at offset " ++ toString pos)
    else if 0 < value_length then
      let value_bytes := readAt file (pos + 12 + key_length) value_length
      if value_bytes.length < value_length then
        .corrupt ("Corrupted value at offset " ++ toString pos)
      else
        .next (pos + 12 + key_length + value_length)
          (updateIndex idx key_bytes (some (pos, true)))
    else
      .next (pos + 12 + key_length) (updateIndex idx key_bytes none)

/-- The `while True` loop of `__recovery`, with explicit fuel (every
iteration that continues consumes at least 12 bytes of the file, so
`file.length + 1` fuel always suffices; see `replayLoop_congr`).  The
result carries the index built so far (the store is mutated in place, so
a corruption exception leaves the partial index), the final value of the
`offset` cursor, and the corruption message when the scan raised. -/
def replayLoop : Nat → Bytes → Nat → Index → Index × Nat × Option String
  | 0, _, pos, idx => (idx, pos, none)
  | fuel + 1, file, pos, idx =>
    match replayStep file pos idx with
    | .done => (idx, pos, none)
    | .corrupt m => (idx, pos, some m)
    | .next pos' idx' => replayLoop fuel file pos' idx'

/-- `recovery()` / `__recovery`: rebuild the index from offset 0 of the
log file.  The public `recovery` catches the corruption exception and
logs it, so the triple's third component records whether an error was
logged rather than raised. -/
def runRecovery (file : Bytes) : Index × Nat × Option String :=
  replayLoop (file.length + 1) file 0 emptyIndex

/-- The index `self.__store` left in place after `recovery()`. -/
def recoverIndex (file : Bytes) : Index :=
  (runRecovery file).1

/-- The corruption error logged by `recovery()` (`none` when the scan
ended with "Recovery completed successfully"). -/
def recoveryError (file : Bytes) : Option String :=
  (runRecovery file).2.2

/-- The state of a `WriteAheadStore`: the write-ahead log file's bytes
and the in-memory index. -/
structure StoreState where
  log : Bytes
  index : Index

/-- A freshly constructed store over a previously absent log file:
`open(path, "ab+")` creates an empty file and `recovery()` leaves the
index empty. -/
def initState : StoreState := ⟨[], emptyIndex⟩

/-- Header bytes produced by `struct.pack("III", ts, klen, vlen)`. -/
def headerOf (ts klen vlen : Nat) : Bytes :=
  u32le ts ++ u32le klen ++ u32le vlen

/-- Full byte encoding of one log record, as written by `set` (and by
`delete` with `v = []`): 12-byte header, then the key bytes, then the
value bytes. -/
def recordOf (ts : Nat) (k v : Bytes) : Bytes :=
  headerOf ts k.length v.length ++ k ++ v

/-- Model of `set(key, value)` (lines 156-197): validation raises
`ValueError` on an empty key or value; otherwise the record is packed
(`struct.error` for an out-of-range timestamp is caught by the `except`
branch, which returns `False` with nothing written), appended at the end
of the file (`offset = self.__file.tell()` is the current length of the
append-mode file), and the index entry set to `(offset, True)`.  The
timestamp `ts` stands for `int(time.time())`. -/
def set (s : StoreState) (ts : Nat) (key value : Bytes) :
    Except String (StoreState × Bool) :=
  if key = [] ∨ value = [] then
    .error "Key and value must be non-empty strings"
  else
    match structPackIII ts key.length value.length with
    | none => .ok (s, false)
    | some header =>
      .ok ({ log := s.log ++ (header ++ key ++ value),
             index := updateIndex s.index key (some (s.log.length, true)) },
           true)

/-- Model of `delete(key)` (lines 246-285): validation raises on an empty
key; otherwise a tombstone record (header with `value_length = 0`
followed by the key bytes only) is appended and the index entry set to
`(offset, False)`. -/
def delete (s : StoreState) (ts : Nat) (key : Bytes) :
    Except String (StoreState × Bool) :=
  if key = [] then
    .error "Key must be a non-empty string"
  else
    match structPackIII ts key.length 0 with
    | none => .ok (s, false)
    | some header =>
      .ok ({ log := s.log ++ (header ++ key),
             index := updateIndex s.index key (some (s.log.length, false)) },
           true)

/-- Model of `get(key)` (lines 199-244): validation raises on an empty
key; a missing or tombstoned index entry returns `None`; then the log
file is opened (`openOk = false` models `open` raising, which happens
outside the `try` and therefore escapes `get`); inside the `try`, a
short header makes `struct.unpack` raise (caught: `None`), the key and
value bytes are read (the value read is never length-checked), and a key
mismatch returns `None`. -/
def get (s : StoreState) (key : Bytes) (openOk : Bool) :
    Except String (Option Bytes) :=
  if key = [] then
    .error "Key must be a non-empty string"
  else
    match s.index key with
    | none => .ok none
    | some (offset, is_set) =>
      if is_set = false then .ok none
      else if openOk = false then .error "could not open write_ahead.log"
      else
        let header := readAt s.log offset 12
        if header.length < 12 then .ok none
        else
          let key_length := readU32 (header.drop 4)
          let value_length := readU32 (header.drop 8)
          let key_bytes := readAt s.log (offset + 12) key_length
          let value_bytes := readAt s.log (offset + 12 + key_length) value_length
          if key_bytes = key then .ok (some value_bytes)
          else .ok none

/-- One client call against the store: a `set` or a `delete` with the
timestamp the clock returned for it. -/
inductive Op where
  | setOp (ts : Nat) (key value : Bytes)
  | delOp (ts : Nat) (key : Bytes)
deriving DecidableEq

/-- An operation whose arguments make the call succeed (return `True`):
non-empty key/value, and all three packed fields within 32 bits. -/
def Op.valid : Op → Bool
  | .setOp ts k v =>
    !k.isEmpty && !v.isEmpty && decide (ts < 4294967296) &&
      decide (k.length < 4294967296) && decide (v.length < 4294967296)
  | .delOp ts k =>
    !k.isEmpty && decide (ts < 4294967296) && decide (k.length < 4294967296)

/-- Whether an operation addresses the key `k`. -/
def Op.touches : Op → Bytes → Bool
  | .setOp _ k' _, k => k' = k
  | .delOp _ k', k => k' = k

/-- Whether an operation is a `set` of the key `k`. -/
def Op.setsKey : Op → Bytes → Bool
  | .setOp _ k' _, k => k' = k
  | .delOp _ _, _ => false

/-- Apply one operation to the store state (a raised validation error or
a returned `False` leaves the state unchanged). -/
def applyOp (s : StoreState) : Op → StoreState
  | .setOp ts k v =>
    match set s ts k v with
    | .ok (s', _) => s'
    | .error _ => s
  | .delOp ts k =>
    match delete s ts k with
    | .ok (s', _) => s'
    | .error _ => s

/-- Run a sequence of client calls. -/
def runOps (s : StoreState) (ops : List Op) : StoreState :=
  ops.foldl applyOp s

/-- The view of an index that survives a replay of the log: entries whose
latest record is a value record; tombstoned entries are popped. -/
def presentOnly (idx : Index) : Index := fun k =>
  match idx k with
  | some (o, true) => some (o, true)
  | _ => none

/-- Big-step view of the `__recovery` loop: `Replays file pos idx r`
states that the loop started at cursor `pos` with index `idx` finishes
with result `r`. -/
inductive Replays (file : Bytes) : Nat → Index → Index × Nat × Option String → Prop where
  | done {pos : Nat} {idx : Index} (h : replayStep file pos idx = .done) :
      Replays file pos idx (idx, pos, none)
  | corrupt {pos : Nat} {idx : Index} {m : String}
      (h : replayStep file pos idx = .corrupt m) :
      Replays file pos idx (idx, pos, some m)
  | next {pos : Nat} {idx : Index} {pos' : Nat} {idx' : Index}
      {r : Index × Nat × Option String}
      (h : replayStep file pos idx = .next pos' idx')
      (tail : Replays file pos' idx' r) : Replays file pos idx r

/-- Replay invariant of every reachable store state: rescanning the log
from offset 0 rebuilds exactly the present entries of the in-memory
index (tombstoned keys are popped) and consumes the whole log with no
error. -/
def Inv (s : StoreState) : Prop :=
  Replays s.log 0 emptyIndex (presentOnly s.index, s.log.length, none)

/-- A store state holds a readable value record for `k ↦ v`: the index
points at offset `L`, and the log bytes at `L` are a complete record
whose key is `k` and whose value is `v`. -/
def GoodAt (s : StoreState) (k v : Bytes) : Prop :=
  ∃ L ts, ts < 4294967296 ∧ k.length < 4294967296 ∧ v.length < 4294967296 ∧
    s.index k = some (L, true) ∧
    L + 12 + k.length + v.length ≤ s.log.length ∧
    readAt s.log L 12 = headerOf ts k.length v.length ∧
    readAt s.log (L + 12) k.length = k ∧
    readAt s.log (L + 12 + k.length) v.length = v

/-- A store state whose index marks `k` as deleted (`is_set = False`). -/
def DeadAt (s : StoreState) (k : Bytes) : Prop :=
  ∃ o, s.index k = some (o, false)

/-- Every present index entry points at a record that lies entirely
inside the file, so positioned reads of it are unaffected by appends. -/
def OffsetsOk (file : Bytes) (idx : Index) : Prop :=
  ∀ k o, idx k = some (o, true) →
    o + 12 ≤ file.length ∧
    o + 12 + readU32 ((readAt file o 12).drop 4) +
        readU32 ((readAt file o 12).drop 8) ≤ file.length

section BasicLemmas

theorem length_readAt (file : Bytes) (pos n : Nat) :
    (readAt file pos n).length = min n (file.length - pos) := by
  simp [readAt]

theorem readAt_append_left {L : Bytes} (ext : Bytes) {pos n : Nat}
    (h : pos + n ≤ L.length) :
    readAt (L ++ ext) pos n = readAt L pos n := by
  unfold readAt
  rw [List.drop_append_of_le_length (by omega),
    List.take_append_of_le_length (by simp; omega)]

theorem u32le_length (a : Nat) : (u32le a).length = 4 := rfl

theorem headerOf_length (a b c : Nat) : (headerOf a b c).length = 12 := rfl

theorem headerOf_drop4 (a b c : Nat) :
    (headerOf a b c).drop 4 = u32le b ++ u32le c := rfl

theorem headerOf_drop8 (a b c : Nat) : (headerOf a b c).drop 8 = u32le c := rfl

theorem readU32_u32le_append (l : Bytes) {a : Nat} (h : a < 4294967296) :
    readU32 (u32le a ++ l) = a := by
  show a % 256 + 256 * (a / 256 % 256) + 65536 * (a / 65536 % 256) +
      16777216 * (a / 16777216 % 256) = a
  omega

theorem readU32_u32le {a : Nat} (h : a < 4294967296) :
    readU32 (u32le a) = a := by
  show a % 256 + 256 * (a / 256 % 256) + 65536 * (a / 65536 % 256) +
      16777216 * (a / 16777216 % 256) = a
  omega

theorem recordOf_length (ts : Nat) (k v : Bytes) :
    (recordOf ts k v).length = 12 + k.length + v.length := by
  simp [recordOf, headerOf, u32le]
  omega

theorem updateIndex_self (idx : Index) (k : Bytes) (v : Option (Nat × Bool)) :
    updateIndex idx k v k = v := by
  simp [updateIndex]

theorem updateIndex_other (idx : Index) {k k' : Bytes}
    (v : Option (Nat × Bool)) (h : k' ≠ k) :
    updateIndex idx k v k' = idx k' := by
  simp [updateIndex, h]

/-- Reads of the three fields of a freshly appended record. -/
theorem record_read_header (L : Bytes) (ts : Nat) (k v : Bytes) :
    readAt (L ++ recordOf ts k v) L.length 12 =
      headerOf ts k.length v.length := by
  unfold readAt recordOf
  rw [List.drop_left, List.append_assoc]
  exact List.take_left' (headerOf_length ts k.length v.length)

theorem record_read_key (L : Bytes) (ts : Nat) (k v : Bytes) :
    readAt (L ++ recordOf ts k v) (L.length + 12) k.length = k := by
  unfold readAt recordOf
  rw [List.drop_append, List.append_assoc,
    List.drop_left' (headerOf_length ts k.length v.length)]
  exact List.take_left k v

theorem record_read_value (L : Bytes) (ts : Nat) (k v : Bytes) :
    readAt (L ++ recordOf ts k v) (L.length + 12 + k.length) v.length = v := by
  unfold readAt recordOf
  rw [Nat.add_assoc, List.drop_append, List.append_assoc,
    ← List.drop_drop, List.drop_left' (headerOf_length ts k.length v.length),
    List.drop_left]
  exact List.take_length v

end BasicLemmas

section ReplayLemmas

/-- Let-free unfolding of `replayStep`, used to case on its branches. -/
theorem replayStep_def (file : Bytes) (pos : Nat) (idx : Index) :
    replayStep file pos idx =
      (if (readAt file pos 12).length < 12 then .done
       else if (readAt file (pos + 12)
            (readU32 ((readAt file pos 12).drop 4))).length <
            readU32 ((readAt file pos 12).drop 4) then
         .corrupt ("Corrupted key at offset " ++ toString pos)
       else if 0 < readU32 ((readAt file pos 12).drop 8) then
         if (readAt file (pos + 12 + readU32 ((readAt file pos 12).drop 4))
              (readU32 ((readAt file pos 12).drop 8))).length <
              readU32 ((readAt file pos 12).drop 8) then
           .corrupt ("Corrupted value at offset " ++ toString pos)
         else
           .next (pos + 12 + readU32 ((readAt file pos 12).drop 4) +
               readU32 ((readAt file pos 12).drop 8))
             (updateIndex idx
               (readAt file (pos + 12) (readU32 ((readAt file pos 12).drop 4)))
               (some (pos, true)))
       else
         .next (pos + 12 + readU32 ((readAt file pos 12).drop 4))
           (updateIndex idx
             (readAt file (pos + 12) (readU32 ((readAt file pos 12).drop 4)))
             none)) := rfl

/-- Past the end of the file the header read comes back empty and the
scan stops. -/
theorem replayStep_done_of_end (idx : Index) {file : Bytes} {pos : Nat}
    (h : file.length ≤ pos + 11) : replayStep file pos idx = .done := by
  rw [replayStep_def]
  rw [if_pos]
  rw [length_readAt]
  omega

/-- Characterization of a loop iteration that continues the scan. -/
theorem replayStep_next_spec {file : Bytes} {pos : Nat} {idx : Index}
    {pos' : Nat} {idx' : Index}
    (h : replayStep file pos idx = .next pos' idx') :
    pos + 12 ≤ file.length ∧
    (readAt file (pos + 12)
        (readU32 ((readAt file pos 12).drop 4))).length =
      readU32 ((readAt file pos 12).drop 4) ∧
    pos + 12 + readU32 ((readAt file pos 12).drop 4) ≤ file.length ∧
    ((0 < readU32 ((readAt file pos 12).drop 8) ∧
        pos + 12 + readU32 ((readAt file pos 12).drop 4) +
            readU32 ((readAt file pos 12).drop 8) ≤ file.length ∧
        pos' = pos + 12 + readU32 ((readAt file pos 12).drop 4) +
            readU32 ((readAt file pos 12).drop 8) ∧
        idx' = updateIndex idx
          (readAt file (pos + 12) (readU32 ((readAt file pos 12).drop 4)))
          (some (pos, true))) ∨
      (readU32 ((readAt file pos 12).drop 8) = 0 ∧
        pos' = pos + 12 + readU32 ((readAt file pos 12).drop 4) ∧
        idx' = updateIndex idx
          (readAt file (pos + 12) (readU32 ((readAt file pos 12).drop 4)))
          none)) := by
  rw [replayStep_def] at h
  split at h
  · exact absurd h (by simp)
  · rename_i h12
    split at h
    · exact absurd h (by simp)
    · rename_i hkey
      have hk12 : pos + 12 ≤ file.length := by
        rw [length_readAt] at h12
        omega
      have hkfull : (readAt file (pos + 12)
          (readU32 ((readAt file pos 12).drop 4))).length =
          readU32 ((readAt file pos 12).drop 4) := by
        rw [length_readAt] at hkey ⊢
        omega
      have hkbound : pos + 12 + readU32 ((readAt file pos 12).drop 4) ≤
          file.length := by
        rw [length_readAt] at hkey
        omega
      split at h
      · rename_i hvpos
        split at h
        · exact absurd h (by simp)
        · rename_i hval
          cases h
          refine ⟨hk12, hkfull, hkbound, Or.inl ⟨hvpos, ?_, rfl, rfl⟩⟩
          rw [length_readAt] at hval
          omega
      · rename_i hvpos
        cases h
        exact ⟨hk12, hkfull, hkbound, Or.inr ⟨by omega, rfl, rfl⟩⟩

/-- A continuing iteration moves the cursor at least 12 bytes forward and
stays within the file. -/
theorem replayStep_next_bound {file : Bytes} {pos : Nat} {idx : Index}
    {pos' : Nat} {idx' : Index}
    (h : replayStep file pos idx = .next pos' idx') :
    pos + 12 ≤ file.length ∧ pos + 12 ≤ pos' := by
  obtain ⟨h1, -, -, h4⟩ := replayStep_next_spec h
  rcases h4 with ⟨-, -, rfl, -⟩ | ⟨-, rfl, -⟩ <;> exact ⟨h1, by omega⟩

/-- Any fuel of at least `file.length + 1 - pos` computes the loop's true
answer: the loop consumes at least 12 bytes per continuing iteration. -/
theorem replayLoop_congr (file : Bytes) :
    ∀ f g pos idx, file.length + 1 - pos ≤ f → file.length + 1 - pos ≤ g →
      replayLoop f file pos idx = replayLoop g file pos idx := by
  intro f
  induction f with
  | zero =>
    intro g pos idx hf hg
    have hdone : replayStep file pos idx = .done :=
      replayStep_done_of_end idx (by omega)
    cases g with
    | zero => rfl
    | succ g => simp [replayLoop, hdone]
  | succ f ih =>
    intro g pos idx hf hg
    cases g with
    | zero =>
      have hdone : replayStep file pos idx = .done :=
        replayStep_done_of_end idx (by omega)
      simp [replayLoop, hdone]
    | succ g =>
      simp only [replayLoop]
      cases hstep : replayStep file pos idx with
      | done => rfl
      | corrupt m => rfl
      | next pos' idx' =>
        have hb := replayStep_next_bound hstep
        exact ih g pos' idx' (by omega) (by omega)

theorem replayLoop_replays (file : Bytes) :
    ∀ f pos idx, file.length + 1 - pos ≤ f →
      Replays file pos idx (replayLoop f file pos idx) := by
  intro f
  induction f with
  | zero =>
    intro pos idx hf
    exact .done (replayStep_done_of_end idx (by omega))
  | succ f ih =>
    intro pos idx hf
    simp only [replayLoop]
    cases hstep : replayStep file pos idx with
    | done => exact .done hstep
    | corrupt m => exact .corrupt hstep
    | next pos' idx' =>
      have hb := replayStep_next_bound hstep
      exact .next hstep (ih pos' idx' (by omega))

theorem replays_det {file : Bytes} :
    ∀ {pos idx r r'}, Replays file pos idx r → Replays file pos idx r' →
      r = r' := by
  intro pos idx r r' h1
  induction h1 with
  | done h =>
    intro h2
    cases h2 with
    | done h' => rfl
    | corrupt h' => rw [h] at h'; cases h'
    | next h' _ => rw [h] at h'; cases h'
  | corrupt h =>
    intro h2
    cases h2 with
    | done h' => rw [h] at h'; cases h'
    | corrupt h' => rw [h] at h'; cases h'; rfl
    | next h' _ => rw [h] at h'; cases h'
  | next h tail ih =>
    intro h2
    cases h2 with
    | done h' => rw [h] at h'; cases h'
    | corrupt h' => rw [h] at h'; cases h'
    | next h' tail' =>
      rw [h] at h'
      cases h'
      exact ih tail'

theorem runRecovery_replays (file : Bytes) :
    Replays file 0 emptyIndex (runRecovery file) :=
  replayLoop_replays file _ 0 emptyIndex (by omega)

/-- The fueled loop and the big-step relation agree. -/
theorem runRecovery_eq {file : Bytes} {r : Index × Nat × Option String}
    (h : Replays file 0 emptyIndex r) : runRecovery file = r :=
  replays_det (runRecovery_replays file) h

end ReplayLemmas

section ExtendLemmas

/-- A continuing iteration only reads bytes that lie inside the current
file, so appending more bytes to the log does not change it. -/
theorem replayStep_append {L : Bytes} (ext : Bytes) {pos : Nat} {idx : Index}
    {pos' : Nat} {idx' : Index}
    (h : replayStep L pos idx = .next pos' idx') :
    replayStep (L ++ ext) pos idx = .next pos' idx' := by
  obtain ⟨h12, -, hkey, hrest⟩ := replayStep_next_spec h
  have hval : pos + 12 + readU32 ((readAt L pos 12).drop 4) +
      readU32 ((readAt L pos 12).drop 8) ≤ L.length := by
    rcases hrest with ⟨-, hb, -, -⟩ | ⟨hz, -, -⟩
    · exact hb
    · omega
  rw [replayStep_def, readAt_append_left ext h12,
    readAt_append_left ext hkey, readAt_append_left ext hval,
    ← replayStep_def]
  exact h

/-- A scan that finishes cleanly at the end of `L` continues over any
appended suffix exactly as a scan of `L ++ ext` started at `L.length`. -/
theorem replays_extend {L ext : Bytes} {idxF : Index}
    {r : Index × Nat × Option String} :
    ∀ {pos idx}, Replays L pos idx (idxF, L.length, none) →
      Replays (L ++ ext) L.length idxF r → Replays (L ++ ext) pos idx r := by
  intro pos idx hL hext
  generalize hres : (idxF, L.length, (none : Option String)) = res at hL
  induction hL with
  | done h =>
    rename_i pos₀ idx₀
    obtain ⟨rfl, rfl, -⟩ : idxF = idx₀ ∧ L.length = pos₀ ∧ True := by
      rw [Prod.mk.injEq, Prod.mk.injEq] at hres
      exact ⟨hres.1, hres.2.1, trivial⟩
    exact hext
  | corrupt h =>
    rw [Prod.mk.injEq, Prod.mk.injEq] at hres
    cases hres.2.2
  | next h tail ih =>
    exact .next (replayStep_append ext h) (ih hres)

end ExtendLemmas

section RecordStepLemmas

/-- Replaying a complete freshly appended value record upserts its key at
the record's offset and moves the cursor past the record. -/
theorem replayStep_record_set (L : Bytes) (idx : Index) (ts : Nat)
    {k : Bytes} (v : Bytes) (hk : k.length < 4294967296)
    (hv : v.length < 4294967296) (hvne : v ≠ []) :
    replayStep (L ++ recordOf ts k v) L.length idx =
      .next (L.length + 12 + k.length + v.length)
        (updateIndex idx k (some (L.length, true))) := by
  have hklen : readU32 ((readAt (L ++ recordOf ts k v) L.length 12).drop 4) =
      k.length := by
    rw [record_read_header, headerOf_drop4]
    exact readU32_u32le_append _ hk
  have hvlen : readU32 ((readAt (L ++ recordOf ts k v) L.length 12).drop 8) =
      v.length := by
    rw [record_read_header, headerOf_drop8]
    exact readU32_u32le hv
  rw [replayStep_def, hklen, hvlen, record_read_key, record_read_value]
  rw [if_neg, if_neg, if_pos (List.length_pos.mpr hvne), if_neg]
  · omega
  · omega
  · rw [record_read_header, headerOf_length]
    omega

/-- Replaying a complete freshly appended tombstone record pops its key
and moves the cursor past the record. -/
theorem replayStep_record_del (L : Bytes) (idx : Index) (ts : Nat)
    {k : Bytes} (hk : k.length < 4294967296) :
    replayStep (L ++ recordOf ts k []) L.length idx =
      .next (L.length + 12 + k.length) (updateIndex idx k none) := by
  have hklen : readU32 ((readAt (L ++ recordOf ts k []) L.length 12).drop 4) =
      k.length := by
    rw [record_read_header, headerOf_drop4]
    exact readU32_u32le_append _ hk
  have hvlen : readU32 ((readAt (L ++ recordOf ts k []) L.length 12).drop 8) =
      0 := by
    rw [record_read_header, headerOf_drop8, List.length_nil]
    exact readU32_u32le (by omega)
  rw [replayStep_def, hklen, hvlen, record_read_key]
  rw [if_neg, if_neg, if_neg]
  · omega
  · omega
  · rw [record_read_header, headerOf_length]
    omega

end RecordStepLemmas

section IndexLemmas

theorem presentOnly_empty : presentOnly emptyIndex = emptyIndex :=
  funext fun _ => rfl

theorem presentOnly_upsert (idx : Index) (k : Bytes) (o : Nat) :
    presentOnly (updateIndex idx k (some (o, true))) =
      updateIndex (presentOnly idx) k (some (o, true)) := by
  funext k'
  by_cases h : k' = k <;> simp [presentOnly, updateIndex, h]

theorem presentOnly_tombstone (idx : Index) (k : Bytes) (o : Nat) :
    presentOnly (updateIndex idx k (some (o, false))) =
      updateIndex (presentOnly idx) k none := by
  funext k'
  by_cases h : k' = k <;> simp [presentOnly, updateIndex, h]

end IndexLemmas

section OpLemmas

theorem applyOp_setOp (s : StoreState) (ts : Nat) (k v : Bytes) :
    applyOp s (.setOp ts k v) =
      (match set s ts k v with
       | .ok (s', _) => s'
       | .error _ => s) := rfl

theorem applyOp_delOp (s : StoreState) (ts : Nat) (k : Bytes) :
    applyOp s (.delOp ts k) =
      (match delete s ts k with
       | .ok (s', _) => s'
       | .error _ => s) := rfl

theorem set_valid {ts : Nat} {key value : Bytes} (s : StoreState)
    (h1 : key ≠ []) (h2 : value ≠ []) (hts : ts < 4294967296)
    (hk : key.length < 4294967296) (hv : value.length < 4294967296) :
    set s ts key value =
      .ok ({ log := s.log ++ recordOf ts key value,
             index := updateIndex s.index key (some (s.log.length, true)) },
           true) := by
  unfold set
  rw [if_neg (by simp [h1, h2]), structPackIII, if_pos ⟨hts, hk, hv⟩]
  rfl

theorem delete_valid {ts : Nat} {key : Bytes} (s : StoreState)
    (h1 : key ≠ []) (hts : ts < 4294967296) (hk : key.length < 4294967296) :
    delete s ts key =
      .ok ({ log := s.log ++ recordOf ts key [],
             index := updateIndex s.index key (some (s.log.length, false)) },
           true) := by
  unfold delete
  rw [if_neg h1, structPackIII, if_pos ⟨hts, hk, by omega⟩]
  simp [recordOf, headerOf]

theorem applyOp_set_valid {ts : Nat} {key value : Bytes} (s : StoreState)
    (hval : Op.valid (.setOp ts key value) = true) :
    applyOp s (.setOp ts key value) =
      { log := s.log ++ recordOf ts key value,
        index := updateIndex s.index key (some (s.log.length, true)) } := by
  simp only [Op.valid, Bool.and_eq_true, decide_eq_true_eq,
    Bool.not_eq_true', List.isEmpty_eq_false] at hval
  obtain ⟨⟨⟨⟨h1, h2⟩, hts⟩, hk⟩, hv⟩ := hval
  rw [applyOp_setOp, set_valid s h1 h2 hts hk hv]

theorem applyOp_del_valid {ts : Nat} {key : Bytes} (s : StoreState)
    (hval : Op.valid (.delOp ts key) = true) :
    applyOp s (.delOp ts key) =
      { log := s.log ++ recordOf ts key [],
        index := updateIndex s.index key (some (s.log.length, false)) } := by
  simp only [Op.valid, Bool.and_eq_true, decide_eq_true_eq,
    Bool.not_eq_true', List.isEmpty_eq_false] at hval
  obtain ⟨⟨h1, hts⟩, hk⟩ := hval
  rw [applyOp_delOp, delete_valid s h1 hts hk]

/-- Whatever an operation does, the store's log only ever grows by a
suffix: it is append-only. -/
theorem applyOp_log_extend (s : StoreState) (op : Op) :
    ∃ ext : Bytes, (applyOp s op).log = s.log ++ ext := by
  cases op with
  | setOp ts k v =>
    rw [applyOp_setOp]
    unfold set
    by_cases h0 : k = [] ∨ v = []
    · rw [if_pos h0]
      exact ⟨[], by simp⟩
    · rw [if_neg h0]
      unfold structPackIII
      by_cases hr : ts < 4294967296 ∧ k.length < 4294967296 ∧
          v.length < 4294967296
      · rw [if_pos hr]
        exact ⟨_, rfl⟩
      · rw [if_neg hr]
        exact ⟨[], by simp⟩
  | delOp ts k =>
    rw [applyOp_delOp]
    unfold delete
    by_cases h0 : k = []
    · rw [if_pos h0]
      exact ⟨[], by simp⟩
    · rw [if_neg h0]
      unfold structPackIII
      by_cases hr : ts < 4294967296 ∧ k.length < 4294967296 ∧
          0 < 4294967296
      · rw [if_pos hr]
        exact ⟨_, rfl⟩
      · rw [if_neg hr]
        exact ⟨[], by simp⟩

/-- Whatever an operation does, index entries of keys it does not touch
are unchanged. -/
theorem applyOp_index_other (s : StoreState) (op : Op) {k : Bytes}
    (h : op.touches k = false) : (applyOp s op).index k = s.index k := by
  cases op with
  | setOp ts k' v =>
    have hne : k ≠ k' := by
      simp only [Op.touches, decide_eq_false_iff_not] at h
      exact fun hk => h (hk ▸ rfl)
    rw [applyOp_setOp]
    unfold set
    by_cases h0 : k' = [] ∨ v = []
    · rw [if_pos h0]
    · rw [if_neg h0]
      unfold structPackIII
      by_cases hr : ts < 4294967296 ∧ k'.length < 4294967296 ∧
          v.length < 4294967296
      · rw [if_pos hr]
        exact updateIndex_other _ _ hne
      · rw [if_neg hr]
  | delOp ts k' =>
    have hne : k ≠ k' := by
      simp only [Op.touches, decide_eq_false_iff_not] at h
      exact fun hk => h (hk ▸ rfl)
    rw [applyOp_delOp]
    unfold delete
    by_cases h0 : k' = []
    · rw [if_pos h0]
    · rw [if_neg h0]
      unfold structPackIII
      by_cases hr : ts < 4294967296 ∧ k'.length < 4294967296 ∧
          0 < 4294967296
      · rw [if_pos hr]
        exact updateIndex_other _ _ hne
      · rw [if_neg hr]

theorem runOps_append (s : StoreState) (l₁ l₂ : List Op) :
    runOps s (l₁ ++ l₂) = runOps (runOps s l₁) l₂ := by
  simp [runOps]

theorem runOps_cons (s : StoreState) (op : Op) (ops : List Op) :
    runOps s (op :: ops) = runOps (applyOp s op) ops := rfl

end OpLemmas

section InvariantLemmas

theorem inv_init : Inv initState := by
  unfold Inv initState
  rw [presentOnly_empty]
  exact .done rfl

theorem inv_applyOp {s : StoreState} (h : Inv s) {op : Op}
    (hv : op.valid = true) : Inv (applyOp s op) := by
  cases op with
  | setOp ts k v =>
    have hval := hv
    simp only [Op.valid, Bool.and_eq_true, decide_eq_true_eq,
      Bool.not_eq_true', List.isEmpty_eq_false] at hval
    obtain ⟨⟨⟨⟨h1, h2⟩, hts⟩, hk⟩, hvl⟩ := hval
    rw [applyOp_set_valid s hv]
    unfold Inv
    refine replays_extend h (.next (replayStep_record_set s.log _ ts v hk hvl h2) ?_)
    have hlen : (s.log ++ recordOf ts k v).length =
        s.log.length + 12 + k.length + v.length := by
      rw [List.length_append, recordOf_length]
      omega
    rw [presentOnly_upsert, ← hlen]
    exact .done (replayStep_done_of_end _ (by omega))
  | delOp ts k =>
    have hval := hv
    simp only [Op.valid, Bool.and_eq_true, decide_eq_true_eq,
      Bool.not_eq_true', List.isEmpty_eq_false] at hval
    obtain ⟨⟨h1, hts⟩, hk⟩ := hval
    rw [applyOp_del_valid s hv]
    unfold Inv
    refine replays_extend h (.next (replayStep_record_del s.log _ ts hk) ?_)
    have hlen : (s.log ++ recordOf ts k []).length =
        s.log.length + 12 + k.length := by
      rw [List.length_append, recordOf_length]
      simp
      omega
    rw [presentOnly_tombstone, ← hlen]
    exact .done (replayStep_done_of_end _ (by omega))

theorem inv_runOps {s : StoreState} (h : Inv s) :
    ∀ {ops : List Op}, (∀ op ∈ ops, op.valid = true) → Inv (runOps s ops) := by
  intro ops
  induction ops generalizing s with
  | nil => intro _; exact h
  | cons op rest ih =>
    intro hall
    rw [runOps_cons]
    exact ih (inv_applyOp h (hall op (by simp)))
      (fun o ho => hall o (by simp [ho]))

end InvariantLemmas

section GetLemmas

/-- Let-free unfolding of `get`, used to case on its branches. -/
theorem get_def (s : StoreState) (key : Bytes) (openOk : Bool) :
    get s key openOk =
      (if key = [] then .error "Key must be a non-empty string"
       else
         match s.index key with
         | none => .ok none
         | some (offset, is_set) =>
           if is_set = false then .ok none
           else if openOk = false then
             .error "could not open write_ahead.log"
           else if (readAt s.log offset 12).length < 12 then .ok none
           else if readAt s.log (offset + 12)
               (readU32 ((readAt s.log offset 12).drop 4)) = key then
             .ok (some (readAt s.log
               (offset + 12 + readU32 ((readAt s.log offset 12).drop 4))
               (readU32 ((readAt s.log offset 12).drop 8))))
           else .ok none) := rfl

/-- `get` cannot tell a tombstone-popped index from the in-memory index:
its result only depends on present entries. -/
theorem get_presentOnly (log : Bytes) (idx : Index) (key : Bytes) (b : Bool) :
    get ⟨log, presentOnly idx⟩ key b = get ⟨log, idx⟩ key b := by
  by_cases hk : key = []
  · simp only [get_def, if_pos hk]
  · cases hidx : idx key with
    | none =>
      have hp : presentOnly idx key = none := by simp [presentOnly, hidx]
      simp only [get_def, if_neg hk, hidx, hp]
    | some ob =>
      obtain ⟨o, tb⟩ := ob
      cases tb with
      | false =>
        have hp : presentOnly idx key = none := by simp [presentOnly, hidx]
        simp [get_def, if_neg hk, hidx, hp]
      | true =>
        have hp : presentOnly idx key = some (o, true) := by
          simp [presentOnly, hidx]
        simp only [get_def, if_neg hk, hidx, hp]

/-- A readable record is returned verbatim by `get`. -/
theorem get_goodAt {s : StoreState} {k v : Bytes} (h : GoodAt s k v)
    (hk : k ≠ []) : get s k true = .ok (some v) := by
  obtain ⟨L, ts, hts, hklt, hvlt, hidx, hb, hh, hkk, hvv⟩ := h
  rw [get_def, if_neg hk, hidx]
  show (if (readAt s.log L 12).length < 12 then (.ok none : Except String (Option Bytes))
    else if readAt s.log (L + 12) (readU32 ((readAt s.log L 12).drop 4)) = k then
      .ok (some (readAt s.log (L + 12 + readU32 ((readAt s.log L 12).drop 4))
        (readU32 ((readAt s.log L 12).drop 8))))
    else .ok none) = .ok (some v)
  rw [hh, headerOf_drop4, headerOf_drop8, readU32_u32le_append _ hklt,
    readU32_u32le hvlt, hkk, hvv, headerOf_length, if_neg (by omega),
    if_pos rfl]

/-- A tombstoned index entry makes `get` return not-found, whatever the
log contains and whether or not the read handle opens. -/
theorem get_deadAt {s : StoreState} {k : Bytes} (h : DeadAt s k)
    (hk : k ≠ []) (b : Bool) : get s k b = .ok none := by
  obtain ⟨o, hidx⟩ := h
  rw [get_def, if_neg hk, hidx]
  rfl

end GetLemmas

section TrackingLemmas

/-- A successful `set` leaves a readable record for its key/value. -/
theorem goodAt_set (s : StoreState) {ts : Nat} {k v : Bytes}
    (hval : Op.valid (.setOp ts k v) = true) :
    GoodAt (applyOp s (.setOp ts k v)) k v := by
  have hv := hval
  simp only [Op.valid, Bool.and_eq_true, decide_eq_true_eq,
    Bool.not_eq_true', List.isEmpty_eq_false] at hv
  obtain ⟨⟨⟨⟨h1, h2⟩, hts⟩, hklt⟩, hvlt⟩ := hv
  rw [applyOp_set_valid s hval]
  refine ⟨s.log.length, ts, hts, hklt, hvlt, updateIndex_self _ _ _, ?_,
    record_read_header _ _ _ _, record_read_key _ _ _ _,
    record_read_value _ _ _ _⟩
  rw [List.length_append, recordOf_length]
  omega

/-- Operations on other keys preserve a readable record. -/
theorem goodAt_applyOp {s : StoreState} {k v : Bytes}
    (h : GoodAt s k v) (op : Op) (hnt : op.touches k = false) :
    GoodAt (applyOp s op) k v := by
  obtain ⟨L, ts, hts, hklt, hvlt, hidx, hb, hh, hkk, hvv⟩ := h
  obtain ⟨ext, hlog⟩ := applyOp_log_extend s op
  refine ⟨L, ts, hts, hklt, hvlt, ?_, ?_, ?_, ?_, ?_⟩
  · rw [applyOp_index_other s op hnt, hidx]
  · rw [hlog, List.length_append]
    omega
  · rw [hlog, readAt_append_left ext (by omega), hh]
  · rw [hlog, readAt_append_left ext (by omega), hkk]
  · rw [hlog, readAt_append_left ext (by omega), hvv]

theorem goodAt_runOps {s : StoreState} {k v : Bytes} (h : GoodAt s k v) :
    ∀ {ops : List Op}, (∀ op ∈ ops, op.touches k = false) →
      GoodAt (runOps s ops) k v := by
  intro ops
  induction ops generalizing s with
  | nil => intro _; exact h
  | cons op rest ih =>
    intro hall
    rw [runOps_cons]
    exact ih (goodAt_applyOp h op (hall op (by simp)))
      (fun o ho => hall o (by simp [ho]))

/-- A successful `delete` marks its key deleted. -/
theorem deadAt_del (s : StoreState) {ts : Nat} {k : Bytes}
    (hval : Op.valid (.delOp ts k) = true) :
    DeadAt (applyOp s (.delOp ts k)) k := by
  rw [applyOp_del_valid s hval]
  exact ⟨s.log.length, updateIndex_self _ _ _⟩

/-- Any operation that is not a `set` of `k` keeps `k` deleted. -/
theorem deadAt_applyOp {s : StoreState} {k : Bytes} (h : DeadAt s k)
    (op : Op) (hns : op.setsKey k = false) : DeadAt (applyOp s op) k := by
  cases op with
  | setOp ts k' v =>
    have ht : Op.touches (.setOp ts k' v) k = false := hns
    obtain ⟨o, ho⟩ := h
    exact ⟨o, by rw [applyOp_index_other s _ ht, ho]⟩
  | delOp ts k' =>
    by_cases hkk : k' = k
    · subst hkk
      rw [applyOp_delOp]
      unfold delete
      by_cases h0 : k' = []
      · rw [if_pos h0]
        exact h
      · rw [if_neg h0]
        unfold structPackIII
        by_cases hr : ts < 4294967296 ∧ k'.length < 4294967296 ∧
            0 < 4294967296
        · rw [if_pos hr]
          exact ⟨s.log.length, updateIndex_self _ _ _⟩
        · rw [if_neg hr]
          exact h
    · have ht : Op.touches (.delOp ts k') k = false := by
        simp [Op.touches, hkk]
      obtain ⟨o, ho⟩ := h
      exact ⟨o, by rw [applyOp_index_other s _ ht, ho]⟩

theorem deadAt_runOps {s : StoreState} {k : Bytes} (h : DeadAt s k) :
    ∀ {ops : List Op}, (∀ op ∈ ops, op.setsKey k = false) →
      DeadAt (runOps s ops) k := by
  intro ops
  induction ops generalizing s with
  | nil => intro _; exact h
  | cons op rest ih =>
    intro hall
    rw [runOps_cons]
    exact ih (deadAt_applyOp h op (hall op (by simp)))
      (fun o ho => hall o (by simp [ho]))

end TrackingLemmas

section StabilityLemmas

theorem offsetsOk_empty (file : Bytes) : OffsetsOk file emptyIndex := by
  intro k o h
  exact absurd h (by simp [emptyIndex])

/-- One continuing replay iteration preserves offset validity: an upsert
stores the offset of a record it just read completely. -/
theorem offsetsOk_step {file : Bytes} {pos : Nat} {idx : Index}
    {pos' : Nat} {idx' : Index}
    (h : replayStep file pos idx = .next pos' idx')
    (h0 : OffsetsOk file idx) : OffsetsOk file idx' := by
  obtain ⟨h12, hkfull, hkb, hrest⟩ := replayStep_next_spec h
  rcases hrest with ⟨hvpos, hvb, -, rfl⟩ | ⟨hz, -, rfl⟩
  · intro k o hko
    by_cases hkeq : k = readAt file (pos + 12)
        (readU32 ((readAt file pos 12).drop 4))
    · rw [hkeq, updateIndex_self] at hko
      obtain ⟨rfl, -⟩ : pos = o ∧ True := by
        simp only [Option.some.injEq, Prod.mk.injEq] at hko
        exact ⟨hko.1, trivial⟩
      exact ⟨h12, hvb⟩
    · rw [updateIndex_other _ _ hkeq] at hko
      exact h0 k o hko
  · intro k o hko
    by_cases hkeq : k = readAt file (pos + 12)
        (readU32 ((readAt file pos 12).drop 4))
    · rw [hkeq, updateIndex_self] at hko
      cases hko
    · rw [updateIndex_other _ _ hkeq] at hko
      exact h0 k o hko

/-- Replay only ever stores offsets of records it read completely. -/
theorem replays_offsetsOk {file : Bytes} :
    ∀ {pos idx r}, Replays file pos idx r → OffsetsOk file idx →
      OffsetsOk file r.1 := by
  intro pos idx r h
  induction h with
  | done h => exact fun h0 => h0
  | corrupt h => exact fun h0 => h0
  | next h tail ih => exact fun h0 => ih (offsetsOk_step h h0)

/-- Reads of present records are unaffected by bytes appended after the
log prefix the index describes, so `get` answers identically. -/
theorem get_stable {L : Bytes} {idx : Index} (hok : OffsetsOk L idx)
    (ext key : Bytes) (b : Bool) :
    get ⟨L ++ ext, idx⟩ key b = get ⟨L, idx⟩ key b := by
  by_cases hk : key = []
  · simp only [get_def, if_pos hk]
  · cases hidx : idx key with
    | none => simp only [get_def, if_neg hk, hidx]
    | some ob =>
      obtain ⟨o, tb⟩ := ob
      cases tb with
      | false =>
        simp only [get_def, if_neg hk, hidx]
        rfl
      | true =>
        obtain ⟨hb1, hb2⟩ := hok key o hidx
        cases b with
        | false =>
          simp only [get_def, if_neg hk, hidx]
          rfl
        | true =>
          simp only [get_def, if_neg hk, hidx]
          rw [readAt_append_left ext (by omega),
            readAt_append_left ext (by omega),
            readAt_append_left ext (by omega)]

end StabilityLemmas

section TruncationLemmas

/-- Header read of a record whose tail was cut off after at least the
full 12-byte header. -/
theorem truncRead_header (L : Bytes) (ts : Nat) (k v : Bytes) {j : Nat}
    (hj : 12 ≤ j) :
    readAt (L ++ (recordOf ts k v).take j) L.length 12 =
      headerOf ts k.length v.length := by
  unfold readAt
  rw [List.drop_left, List.take_take, Nat.min_eq_left hj]
  unfold recordOf
  rw [List.append_assoc]
  exact List.take_left' (headerOf_length ts k.length v.length)

/-- Key-area read of a record whose tail was cut off after the header. -/
theorem truncRead_key (L : Bytes) (ts : Nat) (k v : Bytes) (j n : Nat) :
    readAt (L ++ (recordOf ts k v).take j) (L.length + 12) n =
      ((k ++ v).take (j - 12)).take n := by
  unfold readAt
  rw [List.drop_append, List.drop_take]
  unfold recordOf
  rw [List.append_assoc, List.drop_left' (headerOf_length ts k.length v.length)]

/-- Value-area read of a record whose tail was cut off after the key. -/
theorem truncRead_value (L : Bytes) (ts : Nat) (k v : Bytes) (j n : Nat) :
    readAt (L ++ (recordOf ts k v).take j) (L.length + 12 + k.length) n =
      (v.take (j - 12 - k.length)).take n := by
  unfold readAt
  rw [Nat.add_assoc, List.drop_append, List.drop_take]
  unfold recordOf
  rw [List.append_assoc, ← List.drop_drop,
    List.drop_left' (headerOf_length ts k.length v.length), List.drop_left,
    ← Nat.sub_sub]

/-- A record truncated inside its key bytes replays to a corrupted-key
error at the record's offset. -/
theorem replayStep_trunc_key (L : Bytes) (idx : Index) (ts : Nat)
    {k : Bytes} (v : Bytes) {j : Nat} (hk : k.length < 4294967296)
    (hv : v.length < 4294967296) (hj12 : 12 ≤ j) (hjk : j < 12 + k.length) :
    replayStep (L ++ (recordOf ts k v).take j) L.length idx =
      .corrupt ("Corrupted key at offset " ++ toString L.length) := by
  rw [replayStep_def, truncRead_header L ts k v hj12, headerOf_drop4,
    headerOf_drop8, readU32_u32le_append _ hk, readU32_u32le hv,
    truncRead_key L ts k v j _, headerOf_length]
  rw [if_neg (by omega), if_pos]
  simp only [List.length_take, List.length_append]
  omega

/-- A record truncated inside its value bytes replays to a
corrupted-value error at the record's offset. -/
theorem replayStep_trunc_value (L : Bytes) (idx : Index) (ts : Nat)
    {k v : Bytes} {j : Nat} (hk : k.length < 4294967296)
    (hv : v.length < 4294967296) (hjk : 12 + k.length ≤ j)
    (hj : j < (recordOf ts k v).length) :
    replayStep (L ++ (recordOf ts k v).take j) L.length idx =
      .corrupt ("Corrupted value at offset " ++ toString L.length) := by
  rw [recordOf_length] at hj
  rw [replayStep_def, truncRead_header L ts k v (by omega), headerOf_drop4,
    headerOf_drop8, readU32_u32le_append _ hk, readU32_u32le hv,
    truncRead_key L ts k v j _, truncRead_value L ts k v j _,
    headerOf_length]
  rw [if_neg (by omega), if_neg, if_pos (by omega), if_pos]
  · simp only [List.length_take]
    omega
  · simp only [List.length_take, List.length_append]
    omega

end TruncationLemmas

section Claims

/-- C1: for every non-empty key and value, a successful `set(key, value)`
followed by `get(key)`, with no intervening delete or overwrite of that
key, returns exactly the UTF-8 byte encoding of the value (keys and
values are modelled by their UTF-8 bytes). -/
theorem C1_set_get_roundtrip (pre post : List Op) (ts : Nat) (k v : Bytes)
    (hval : Op.valid (.setOp ts k v) = true)
    (hpost : ∀ op ∈ post, op.touches k = false) :
    get (runOps initState (pre ++ Op.setOp ts k v :: post)) k true =
      .ok (some v) := by
  have hs := hval
  simp only [Op.valid, Bool.and_eq_true, decide_eq_true_eq,
    Bool.not_eq_true', List.isEmpty_eq_false] at hs
  obtain ⟨⟨⟨⟨h1, h2⟩, hts⟩, hklt⟩, hvlt⟩ := hs
  rw [runOps_append, runOps_cons]
  exact get_goodAt (goodAt_runOps (goodAt_set _ hval) hpost) h1

/-- Witness for C1 at a concrete history. -/
theorem C1_witness :
    get (runOps initState ([] ++ Op.setOp 5 [107, 101, 121] [118, 97, 108] ::
        [Op.setOp 6 [111] [119]])) [107, 101, 121] true =
      .ok (some [118, 97, 108]) :=
  C1_set_get_roundtrip [] [Op.setOp 6 [111] [119]] 5 [107, 101, 121]
    [118, 97, 108] (by decide) (by decide)

/-- C2 counterexample: after `set k` then `delete k` the in-memory index
still holds `k ↦ (14, False)` while replaying the same log holds no
entry for `k` at all, so the replayed Index is not entry-for-entry equal
to the in-memory one. -/
theorem C2_counterexample :
    (runOps initState [Op.setOp 0 [107] [118], Op.delOp 1 [107]]).index
        [107] = some (14, false) ∧
    recoverIndex
        (runOps initState [Op.setOp 0 [107] [118], Op.delOp 1 [107]]).log
        [107] = none := by
  constructor <;> rfl

/-- C2 amended: for every sequence of successful operations, replaying
the log from offset 0 reproduces exactly the present entries of the
in-memory Index — keys whose latest record is a tombstone are dropped by
replay although the in-memory Index retains them with a cleared flag —
and closing and reopening the store yields identical `get` results for
every key. -/
theorem C2_replay_equivalence (ops : List Op)
    (h : ∀ op ∈ ops, op.valid = true) :
    recoverIndex (runOps initState ops).log =
      presentOnly (runOps initState ops).index ∧
    (∀ key b, get ⟨(runOps initState ops).log,
        recoverIndex (runOps initState ops).log⟩ key b =
      get (runOps initState ops) key b) := by
  have hinv := inv_runOps inv_init h
  have hidx : recoverIndex (runOps initState ops).log =
      presentOnly (runOps initState ops).index := by
    unfold recoverIndex
    rw [runRecovery_eq hinv]
  refine ⟨hidx, fun key b => ?_⟩
  rw [hidx]
  exact get_presentOnly _ _ key b

/-- Witness for the amended C2 at a concrete history. -/
theorem C2_witness :
    recoverIndex (runOps initState
        [Op.setOp 0 [107] [118], Op.delOp 1 [107]]).log =
      presentOnly (runOps initState
        [Op.setOp 0 [107] [118], Op.delOp 1 [107]]).index ∧
    (∀ key b, get ⟨(runOps initState
          [Op.setOp 0 [107] [118], Op.delOp 1 [107]]).log,
        recoverIndex (runOps initState
          [Op.setOp 0 [107] [118], Op.delOp 1 [107]]).log⟩ key b =
      get (runOps initState
          [Op.setOp 0 [107] [118], Op.delOp 1 [107]]) key b) :=
  C2_replay_equivalence [Op.setOp 0 [107] [118], Op.delOp 1 [107]]
    (by decide)

/-- C3 counterexample: a log of 3 bytes makes the header read return
between 1 and 11 bytes, yet recovery raises no error and completes like
a clean end-of-log with the cursor still at offset 0. -/
theorem C3_counterexample :
    recoveryError [1, 2, 3] = none ∧ (runRecovery [1, 2, 3]).2.1 = 0 := by
  constructor <;> rfl

/-- C3 amended: a trailing fragment of 1 to 11 bytes after a cleanly
replayable log is treated exactly like a clean end-of-log (a zero-byte
read): the scan breaks out of the loop, keeps the index built so far,
and raises no truncated-header error. -/
theorem C3_short_header_like_eof {L : Bytes} {idx : Index} (t : Bytes)
    (hrep : Replays L 0 emptyIndex (idx, L.length, none))
    (h1 : 1 ≤ t.length) (h2 : t.length < 12) :
    runRecovery (L ++ t) = (idx, L.length, none) := by
  refine runRecovery_eq (replays_extend hrep (.done ?_))
  apply replayStep_done_of_end
  rw [List.length_append]
  omega

/-- Witness for the amended C3 at a concrete log. -/
theorem C3_witness : runRecovery ([] ++ [1, 2, 3]) = (emptyIndex, 0, none) :=
  C3_short_header_like_eof [1, 2, 3] (.done rfl) (by decide) (by decide)

/-- C4 counterexample: with a present key and good input, `get` raises
when the log file cannot be opened — the `open` call sits outside the
`try` block — instead of returning not-found. -/
theorem C4_counterexample :
    get (runOps initState [Op.setOp 0 [107] [118]]) [107] false =
      .error "could not open write_ahead.log" := by
  rfl

/-- C4 amended: once validation passes and the log file opens, `get`
never raises: every branch of the read path (missing key, tombstone,
short header, key mismatch, success) returns a value; only failure of
the `open` call itself escapes `get`. -/
theorem C4_get_no_raise (s : StoreState) (k : Bytes) (hk : k ≠ []) :
    ∃ r, get s k true = .ok r := by
  rw [get_def, if_neg hk]
  cases hidx : s.index k with
  | none => exact ⟨none, rfl⟩
  | some ob =>
    obtain ⟨o, tb⟩ := ob
    cases tb with
    | false => exact ⟨none, rfl⟩
    | true =>
      show ∃ r, (if (readAt s.log o 12).length < 12 then
          (Except.ok none : Except String (Option Bytes))
        else if readAt s.log (o + 12)
            (readU32 ((readAt s.log o 12).drop 4)) = k then
          .ok (some (readAt s.log
            (o + 12 + readU32 ((readAt s.log o 12).drop 4))
            (readU32 ((readAt s.log o 12).drop 8))))
        else .ok none) = .ok r
      by_cases hh : (readAt s.log o 12).length < 12
      · exact ⟨none, by rw [if_pos hh]⟩
      · by_cases hm : readAt s.log (o + 12)
            (readU32 ((readAt s.log o 12).drop 4)) = k
        · exact ⟨_, by rw [if_neg hh, if_pos hm]⟩
        · exact ⟨none, by rw [if_neg hh, if_neg hm]⟩

/-- Witness for the amended C4 at a concrete state. -/
theorem C4_witness : ∃ r, get initState [107] true = .ok r :=
  C4_get_no_raise initState [107] (by decide)

/-- C5 counterexample: truncating the log's final (only) record, 14
bytes long, down to its first 5 bytes and recovering succeeds but logs
no corruption error at all: the short trailing header is treated as a
clean end-of-log. -/
theorem C5_counterexample :
    recoveryError ((recordOf 0 [107] [118]).take 5) = none ∧
    (recordOf 0 [107] [118]).length = 14 := by
  constructor <;> rfl

/-- C5 amended: for a log ending in a record truncated mid-record,
recovery returns without raising to the caller and leaves the Index
equal to the replay of the complete records preceding the truncation
point, and `get` answers over that Index are unchanged by the trailing
fragment; but a corruption error is logged if and only if at least 12
bytes of the truncated record remain — truncation inside the 12-byte
header (1 to 11 leftover bytes) completes silently with no error. -/
theorem C5_truncation_resilience (L : Bytes) (idx : Index) (ts : Nat)
    (k v : Bytes) (j : Nat)
    (hrep : Replays L 0 emptyIndex (idx, L.length, none))
    (hklt : k.length < 4294967296) (hvlt : v.length < 4294967296)
    (hj1 : 1 ≤ j) (hj2 : j < (recordOf ts k v).length) :
    recoverIndex (L ++ (recordOf ts k v).take j) = idx ∧
    ((recoveryError (L ++ (recordOf ts k v).take j)).isSome ↔ 12 ≤ j) ∧
    (∀ key b, get ⟨L ++ (recordOf ts k v).take j, idx⟩ key b =
      get ⟨L, idx⟩ key b) := by
  have hok : OffsetsOk L idx :=
    replays_offsetsOk hrep (offsetsOk_empty L)
  have hres : runRecovery (L ++ (recordOf ts k v).take j) =
      (idx, L.length,
        if 12 ≤ j then
          some (if j < 12 + k.length then
              "Corrupted key at offset " ++ toString L.length
            else "Corrupted value at offset " ++ toString L.length)
        else none) := by
    by_cases hj12 : 12 ≤ j
    · by_cases hjk : j < 12 + k.length
      · rw [if_pos hj12, if_pos hjk]
        exact runRecovery_eq (replays_extend hrep
          (.corrupt (replayStep_trunc_key L idx ts v hklt hvlt hj12 hjk)))
      · rw [if_pos hj12, if_neg hjk]
        exact runRecovery_eq (replays_extend hrep
          (.corrupt (replayStep_trunc_value L idx ts hklt hvlt
            (by omega) hj2)))
    · rw [if_neg hj12]
      refine runRecovery_eq (replays_extend hrep (.done ?_))
      apply replayStep_done_of_end
      rw [List.length_append, List.length_take]
      omega
  refine ⟨?_, ?_, fun key b => get_stable hok _ key b⟩
  · unfold recoverIndex
    rw [hres]
  · unfold recoveryError
    rw [hres]
    by_cases hj12 : 12 ≤ j <;> simp [hj12]

/-- Witness for the amended C5 at a concrete truncated log. -/
theorem C5_witness :
    recoverIndex ([] ++ (recordOf 0 [107, 101] [118]).take 13) =
      emptyIndex ∧
    ((recoveryError ([] ++ (recordOf 0 [107, 101] [118]).take 13)).isSome ↔
      12 ≤ 13) ∧
    (∀ key b, get ⟨[] ++ (recordOf 0 [107, 101] [118]).take 13,
        emptyIndex⟩ key b = get ⟨[], emptyIndex⟩ key b) :=
  C5_truncation_resilience [] emptyIndex 0 [107, 101] [118] 13 (.done rfl)
    (by decide) (by decide) (by decide) (by decide)

/-- C6: `set` with an empty key or an empty value raises a validation
error before any I/O; applied as an operation it leaves the store state
(log file and Index) unchanged — no record is written. -/
theorem C6_empty_input_rejected (s : StoreState) (ts : Nat) (k v : Bytes)
    (h : k = [] ∨ v = []) :
    set s ts k v = .error "Key and value must be non-empty strings" ∧
    applyOp s (.setOp ts k v) = s := by
  have hset : set s ts k v =
      .error "Key and value must be non-empty strings" := by
    unfold set
    rw [if_pos h]
  exact ⟨hset, by rw [applyOp_setOp, hset]⟩

/-- Witness for C6 at the two concrete rejection scenarios. -/
theorem C6_witness :
    (set initState 0 [] [120] =
        .error "Key and value must be non-empty strings" ∧
      applyOp initState (.setOp 0 [] [120]) = initState) ∧
    (set initState 0 [107] [] =
        .error "Key and value must be non-empty strings" ∧
      applyOp initState (.setOp 0 [107] []) = initState) :=
  ⟨C6_empty_input_rejected initState 0 [] [120] (Or.inl rfl),
   C6_empty_input_rejected initState 0 [107] [] (Or.inr rfl)⟩

/-- C7: a deleted key that is not subsequently set again reads as
not-found; and deleting a never-set key is not an error: it returns
True, appends a tombstone record, and marks the key absent for `get`. -/
theorem C7_delete_semantics (pre post : List Op) (ts : Nat) (k : Bytes)
    (hval : Op.valid (.delOp ts k) = true)
    (hpost : ∀ op ∈ post, op.setsKey k = false)
    (s : StoreState) (ts₂ : Nat) (k₂ : Bytes)
    (hval₂ : Op.valid (.delOp ts₂ k₂) = true) :
    get (runOps initState (pre ++ Op.delOp ts k :: post)) k true =
      .ok none ∧
    delete s ts₂ k₂ =
      .ok ({ log := s.log ++ recordOf ts₂ k₂ [],
             index := updateIndex s.index k₂ (some (s.log.length, false)) },
           true) ∧
    get { log := s.log ++ recordOf ts₂ k₂ [],
          index := updateIndex s.index k₂ (some (s.log.length, false)) }
        k₂ true = .ok none := by
  have h1 := hval
  simp only [Op.valid, Bool.and_eq_true, decide_eq_true_eq,
    Bool.not_eq_true', List.isEmpty_eq_false] at h1
  obtain ⟨⟨hk1, hts1⟩, hkl1⟩ := h1
  have h2 := hval₂
  simp only [Op.valid, Bool.and_eq_true, decide_eq_true_eq,
    Bool.not_eq_true', List.isEmpty_eq_false] at h2
  obtain ⟨⟨hk2, hts2⟩, hkl2⟩ := h2
  refine ⟨?_, delete_valid s hk2 hts2 hkl2, ?_⟩
  · rw [runOps_append, runOps_cons]
    exact get_deadAt (deadAt_runOps (deadAt_del _ hval) hpost) hk1 true
  · exact get_deadAt ⟨s.log.length, updateIndex_self _ _ _⟩ hk2 true

/-- Witness for C7 at a concrete history and a concrete never-set key. -/
theorem C7_witness :
    get (runOps initState ([] ++ Op.delOp 1 [107] :: [Op.delOp 2 [107]]))
        [107] true = .ok none ∧
    delete initState 0 [106] =
      .ok ({ log := initState.log ++ recordOf 0 [106] [],
             index := updateIndex initState.index [106]
               (some (initState.log.length, false)) },
           true) ∧
    get { log := initState.log ++ recordOf 0 [106] [],
          index := updateIndex initState.index [106]
            (some (initState.log.length, false)) }
        [106] true = .ok none :=
  C7_delete_semantics [] [Op.delOp 2 [107]] 1 [107] (by decide) (by decide)
    initState 0 [106] (by decide)

/-- C8: every record appended by a successful `set` or `delete` is the
12-byte header of three 4-byte unsigned little-endian fields (timestamp,
key_length, value_length) with no padding, followed by exactly the key
bytes and then the value bytes; a tombstone has value_length 0 and omits
the value bytes entirely, and the record length is always
12 + key_length + value_length. -/
theorem C8_record_layout (s : StoreState) (ts : Nat) (k v : Bytes)
    (hk : k ≠ []) (hv : v ≠ []) (hts : ts < 4294967296)
    (hklt : k.length < 4294967296) (hvlt : v.length < 4294967296) :
    set s ts k v =
      .ok ({ log := s.log ++ recordOf ts k v,
             index := updateIndex s.index k (some (s.log.length, true)) },
           true) ∧
    delete s ts k =
      .ok ({ log := s.log ++ recordOf ts k [],
             index := updateIndex s.index k (some (s.log.length, false)) },
           true) ∧
    recordOf ts k v =
      u32le ts ++ u32le k.length ++ u32le v.length ++ k ++ v ∧
    recordOf ts k [] = u32le ts ++ u32le k.length ++ u32le 0 ++ k ∧
    (u32le ts).length = 4 ∧ (u32le k.length).length = 4 ∧
    (u32le v.length).length = 4 ∧
    (recordOf ts k v).length = 12 + k.length + v.length ∧
    (recordOf ts k []).length = 12 + k.length := by
  refine ⟨set_valid s hk hv hts hklt hvlt, delete_valid s hk hts hklt,
    ?_, ?_, rfl, rfl, rfl, recordOf_length ts k v, ?_⟩
  · simp [recordOf, headerOf]
  · simp [recordOf, headerOf]
  · rw [recordOf_length]
    simp

/-- Witness for C8 at a concrete record. -/
theorem C8_witness :
    set initState 3 [107] [118, 119] =
      .ok ({ log := initState.log ++ recordOf 3 [107] [118, 119],
             index := updateIndex initState.index [107]
               (some (initState.log.length, true)) },
           true) ∧
    delete initState 3 [107] =
      .ok ({ log := initState.log ++ recordOf 3 [107] [],
             index := updateIndex initState.index [107]
               (some (initState.log.length, false)) },
           true) ∧
    recordOf 3 [107] [118, 119] =
      u32le 3 ++ u32le (List.length [107]) ++
        u32le (List.length [118, 119]) ++ [107] ++ [118, 119] ∧
    recordOf 3 [107] [] =
      u32le 3 ++ u32le (List.length [107]) ++ u32le 0 ++ [107] ∧
    (u32le 3).length = 4 ∧ (u32le (List.length [107])).length = 4 ∧
    (u32le (List.length [118, 119])).length = 4 ∧
    (recordOf 3 [107] [118, 119]).length =
      12 + List.length [107] + List.length [118, 119] ∧
    (recordOf 3 [107] []).length = 12 + List.length [107] :=
  C8_record_layout initState 3 [107] [118, 119] (by decide) (by decide)
    (by decide) (by decide) (by decide)

/-- C9 counterexample: a timestamp of 2^32 does not wrap modulo 2^32:
the pack step fails, so `set` writes nothing and returns False. -/
theorem C9_counterexample :
    structPackIII 4294967296 1 1 = none ∧
    set initState 4294967296 [107] [118] = .ok (initState, false) := by
  constructor <;> rfl

/-- C9 amended: the timestamp is stored as a fixed-width 4-byte unsigned
little-endian field and round-trips exactly for every value below 2^32;
for values at or above 2^32 the pack step raises instead of wrapping, and
`set`/`delete` catch that, returning False with nothing written. -/
theorem C9_timestamp_range (s : StoreState) (ts : Nat) (k v : Bytes)
    (hk : k ≠ []) (hv : v ≠ []) :
    (ts < 4294967296 → (u32le ts).length = 4 ∧ readU32 (u32le ts) = ts ∧
      structPackIII ts k.length v.length =
        (if k.length < 4294967296 ∧ v.length < 4294967296 then
          some (headerOf ts k.length v.length) else none)) ∧
    (4294967296 ≤ ts → structPackIII ts k.length v.length = none ∧
      set s ts k v = .ok (s, false) ∧ delete s ts k = .ok (s, false)) := by
  constructor
  · intro hlt
    refine ⟨rfl, readU32_u32le hlt, ?_⟩
    unfold structPackIII headerOf
    by_cases hb : k.length < 4294967296 ∧ v.length < 4294967296
    · rw [if_pos ⟨hlt, hb.1, hb.2⟩, if_pos hb]
    · rw [if_neg (by tauto), if_neg hb]
  · intro hge
    have hnone : structPackIII ts k.length v.length = none := by
      unfold structPackIII
      rw [if_neg (by omega)]
    have hnone0 : structPackIII ts k.length 0 = none := by
      unfold structPackIII
      rw [if_neg (by omega)]
    refine ⟨hnone, ?_, ?_⟩
    · unfold set
      rw [if_neg (by simp [hk, hv]), hnone]
    · unfold delete
      rw [if_neg hk, hnone0]

/-- Witness for the amended C9 on both sides of the 2^32 boundary. -/
theorem C9_witness :
    ((7 < 4294967296 → (u32le 7).length = 4 ∧ readU32 (u32le 7) = 7 ∧
        structPackIII 7 (List.length [107]) (List.length [118]) =
          (if List.length [107] < 4294967296 ∧
              List.length [118] < 4294967296 then
            some (headerOf 7 (List.length [107]) (List.length [118]))
          else none)) ∧
      (4294967296 ≤ 7 →
        structPackIII 7 (List.length [107]) (List.length [118]) = none ∧
        set initState 7 [107] [118] = .ok (initState, false) ∧
        delete initState 7 [107] = .ok (initState, false))) ∧
    ((4294967296 < 4294967296 → (u32le 4294967296).length = 4 ∧
        readU32 (u32le 4294967296) = 4294967296 ∧
        structPackIII 4294967296 (List.length [107]) (List.length [118]) =
          (if List.length [107] < 4294967296 ∧
              List.length [118] < 4294967296 then
            some (headerOf 4294967296 (List.length [107])
              (List.length [118]))
          else none)) ∧
      (4294967296 ≤ 4294967296 →
        structPackIII 4294967296 (List.length [107])
            (List.length [118]) = none ∧
        set initState 4294967296 [107] [118] = .ok (initState, false) ∧
        delete initState 4294967296 [107] = .ok (initState, false))) :=
  ⟨C9_timestamp_range initState 7 [107] [118] (by decide) (by decide),
   C9_timestamp_range initState 4294967296 [107] [118] (by decide)
     (by decide)⟩

/-- C10: after a successful `delete(key)` the public store view still
holds an entry for the key, mapped to the tombstone record's offset with
the presence flag cleared, while a replay of the same history holds no
entry for that key at all. -/
theorem C10_tombstone_view (ops : List Op) (ts : Nat) (k : Bytes)
    (hval : Op.valid (.delOp ts k) = true)
    (hops : ∀ op ∈ ops, op.valid = true) :
    (runOps initState (ops ++ [Op.delOp ts k])).index k =
      some ((runOps initState ops).log.length, false) ∧
    recoverIndex (runOps initState (ops ++ [Op.delOp ts k])).log k =
      none := by
  have hall : ∀ op ∈ ops ++ [Op.delOp ts k], op.valid = true := by
    intro op hop
    rcases List.mem_append.1 hop with h | h
    · exact hops op h
    · simp only [List.mem_singleton] at h
      subst h
      exact hval
  have hinv := inv_runOps inv_init hall
  have hidx : (runOps initState (ops ++ [Op.delOp ts k])).index k =
      some ((runOps initState ops).log.length, false) := by
    rw [runOps_append, runOps_cons]
    show (applyOp (runOps initState ops) (.delOp ts k)).index k = _
    rw [applyOp_del_valid _ hval]
    exact updateIndex_self _ _ _
  refine ⟨hidx, ?_⟩
  unfold recoverIndex
  rw [runRecovery_eq hinv]
  simp [presentOnly, hidx]

/-- Witness for C10 at a concrete history. -/
theorem C10_witness :
    (runOps initState ([Op.setOp 0 [107] [118]] ++ [Op.delOp 1 [107]])).index
        [107] =
      some ((runOps initState [Op.setOp 0 [107] [118]]).log.length, false) ∧
    recoverIndex
        (runOps initState
          ([Op.setOp 0 [107] [118]] ++ [Op.delOp 1 [107]])).log [107] =
      none :=
  C10_tombstone_view [Op.setOp 0 [107] [118]] 1 [107] (by decide)
    (by decide)

end Claims

end WAStore
